import Mathlib

/-!
Verification of the blog content pipeline.

The development embeds the content-loading utilities (`getPostBySlug`,
`getAllPosts`) and the home-page search filter (`handleSearch`) of the
repository into Lean and proves the specified properties about them.

External collaborators are modelled at the level of their observable
behaviour:
* the file system is a list of `(name, content)` entries (`Dir`);
* the frontmatter library `gray-matter` is represented by the outcome of
  parsing a file (`FileContent`: either parsed data plus body, or malformed);
* the MDX serializer is deterministic and is represented by the body text it
  receives;
* `Array.prototype.sort` (stable, per ES2019) is realised as a stable
  insertion sort, which produces the unique stable result for a comparator
  that induces a total preorder.
-/

namespace Blog

/-- Lowercasing of a string, modelling `String.prototype.toLowerCase` as
character-wise `Char.toLower` (they agree on the ASCII data the blog uses). -/
def jsToLower (s : String) : String := ⟨s.data.map Char.toLower⟩

/-- Substring test on character lists: `needle` occurs contiguously in the
second list. Models the search loop behind `String.prototype.includes`. -/
def containsSub (needle : List Char) : List Char → Bool
  | [] => needle.isPrefixOf []
  | c :: rest => needle.isPrefixOf (c :: rest) || containsSub needle rest

/-- Models `s.includes(sub)` from JavaScript. -/
def strIncludes (s sub : String) : Bool := containsSub sub.data s.data

/-- Suffix test on strings, used to model the end-anchored regexes of the
source (`\.mdx$`, `\.mdx?$`). -/
def strEndsWith (s suf : String) : Bool := List.isSuffixOf suf.data s.data

/-- Drop the last `n` characters of a string. -/
def strDropRight (s : String) (n : Nat) : String :=
  ⟨s.data.take (s.data.length - n)⟩

/-- Models `slug.replace(/\.mdx$/, "")` from `getPostBySlug`: the regex is
anchored at the end, so it strips one trailing `.mdx` if present. -/
def stripMdx (s : String) : String :=
  if strEndsWith s ".mdx" then strDropRight s 4 else s

/-- Models `fileName.replace(/\.mdx?$/, "")` from `getAllPosts`: the greedy
`x?` strips a trailing `.mdx` when present, otherwise a trailing `.md`. -/
def stripMdxOpt (s : String) : String :=
  if strEndsWith s ".mdx" then strDropRight s 4
  else if strEndsWith s ".md" then strDropRight s 3
  else s

/-- Models the directory filter `/\.mdx?$/.test(path)` from `getAllPosts`:
it accepts names ending in `.mdx` or in `.md`. -/
def isMdxFile (s : String) : Bool := strEndsWith s ".mdx" || strEndsWith s ".md"

/-- Frontmatter data as returned by `gray-matter`: the fields the blog reads,
plus a possible explicit `slug` key in the header (`slugField`), which the
code may or may not override. -/
structure FrontmatterData where
  title : String
  date : String
  description : String
  tags : List String
  slugField : Option String
deriving DecidableEq

/-- A content file as seen through `gray-matter`: either it parses into
frontmatter data and a body, or the metadata header is malformed and the
parse throws. -/
inductive FileContent where
  | parsed (data : FrontmatterData) (body : String)
  | malformed
deriving DecidableEq

/-- The error taxonomy of the content pipeline. -/
inductive BlogError where
  | notFound
  | ioError
  | parseError
deriving DecidableEq

/-- Models `matter(fileContent)`: yields the data/body pair, or throws a
parse error on a malformed header. -/
def matter : FileContent → Except BlogError (FrontmatterData × String)
  | .parsed d b => .ok (d, b)
  | .malformed => .error .parseError

/-- The Content Store: the posts directory as a list of named files. -/
abbrev Dir := List (String × FileContent)

/-- Models `fs.readdirSync(POSTS_PATH)`. -/
def readdirSync (dir : Dir) : List String := dir.map Prod.fst

/-- Models `fs.readFileSync` on a path inside the posts directory: returns
the file content, or throws the not-found error when no entry matches. -/
def readFileSync (dir : Dir) (name : String) : Except BlogError FileContent :=
  match dir.find? (fun e => e.fst == name) with
  | some e => .ok e.snd
  | none => .error .notFound

/-- The `PostMetadata` interface of the source. -/
structure PostMetadata where
  title : String
  date : String
  description : String
  slug : String
  tags : List String
deriving DecidableEq

/-- Models the object literal `{ ...data, slug: realSlug }`: the spread
copies the frontmatter fields, and the `slug` key written after the spread
wins over any `slug` key inside `data` (so `slugField` is discarded). -/
def spreadWithSlug (data : FrontmatterData) (slug : String) : PostMetadata :=
  { title := data.title
    date := data.date
    description := data.description
    slug := slug
    tags := data.tags }

/-- Numeric value of a decimal digit character. -/
def digitVal (c : Char) : Nat := c.toNat - 48

/-- Models `new Date(s).getTime()` on the ISO `YYYY-MM-DD` date strings the
content uses, up to an order-preserving change of scale: only the relative
order of the values is ever used (by the sort comparator). -/
def parseDate (s : String) : Option Nat :=
  match s.data with
  | [y1, y2, y3, y4, h1, m1, m2, h2, d1, d2] =>
    if y1.isDigit && y2.isDigit && y3.isDigit && y4.isDigit && h1 == '-' &&
       m1.isDigit && m2.isDigit && h2 == '-' && d1.isDigit && d2.isDigit then
      some ((((digitVal y1 * 10 + digitVal y2) * 10 + digitVal y3) * 10
              + digitVal y4) * 10000
            + (digitVal m1 * 10 + digitVal m2) * 100
            + (digitVal d1 * 10 + digitVal d2))
    else none
  | _ => none

/-- Total sort key: the parsed date value, with unparseable dates given an
arbitrary fixed key (the source comparator is unspecified on them, since
`getTime()` is NaN there). -/
def dateKey (s : String) : Nat := (parseDate s).getD 0

/-- The sort comparator `(a, b) => new Date(b.date) - new Date(a.date)`:
`a` may stay before `b` exactly when the comparator is nonpositive, i.e.
when the key of `b` is at most the key of `a`. -/
def postLe (a b : PostMetadata) : Bool := decide (dateKey b.date ≤ dateKey a.date)

/-- Insert an element into an already sorted list, keeping it before the
elements it ties with: the stable placement of an earlier array element. -/
def insertStable {α : Type} (le : α → α → Bool) (x : α) : List α → List α
  | [] => [x]
  | y :: ys => if le x y then x :: y :: ys else y :: insertStable le x ys

/-- Stable insertion sort. Models `Array.prototype.sort` (ES2019: stable and
consistent with the comparator); for a comparator inducing a total preorder
the stable result is unique, so this realisation is faithful. -/
def stableSort {α : Type} (le : α → α → Bool) : List α → List α
  | [] => []
  | x :: xs => insertStable le x (stableSort le xs)

/-- Models `Promise.all` over the per-file loads of `getAllPosts`: succeeds
with all results, and rejects as a whole as soon as any load rejects — no
list of successfully loaded files survives a failure. -/
def promiseAll {α β : Type} (f : α → Except BlogError β) :
    List α → Except BlogError (List β)
  | [] => .ok []
  | x :: xs =>
    match f x with
    | .error e => .error e
    | .ok y =>
      match promiseAll f xs with
      | .error e => .error e
      | .ok ys => .ok (y :: ys)

/-- The per-file body of `getAllPosts`: read the file, parse the header, and
build the summary with the filename-derived slug spread over the data. -/
def loadPost (dir : Dir) (fileName : String) : Except BlogError PostMetadata :=
  match readFileSync dir fileName with
  | .error e => .error e
  | .ok source =>
    match matter source with
    | .error e => .error e
    | .ok pr => .ok (spreadWithSlug pr.fst (stripMdxOpt fileName))

/-- Models `getAllPosts()`: list the directory, keep the `.mdx?` files, load
each one, and sort the summaries by descending date. -/
def getAllPosts (dir : Dir) : Except BlogError (List PostMetadata) :=
  match promiseAll (loadPost dir) ((readdirSync dir).filter isMdxFile) with
  | .error e => .error e
  | .ok posts => .ok (stableSort postLe posts)

/-- The value returned by `getPostBySlug`: the serialized body (represented
by the text handed to the external serializer) and the metadata. -/
structure RenderedPost where
  mdxSource : String
  metadata : PostMetadata
deriving DecidableEq

/-- Models `getPostBySlug(slug)`: strip a trailing `.mdx` from the slug,
read `realSlug + ".mdx"`, parse it, and return body and metadata with the
slug key overriding the spread data. -/
def getPostBySlug (dir : Dir) (slug : String) : Except BlogError RenderedPost :=
  let realSlug := stripMdx slug
  let filePath := realSlug ++ ".mdx"
  match readFileSync dir filePath with
  | .error e => .error e
  | .ok fileContent =>
    match matter fileContent with
    | .error e => .error e
    | .ok pr => .ok { mdxSource := pr.snd, metadata := spreadWithSlug pr.fst realSlug }

/-- The match predicate inside `handleSearch`: the already-lowercased query
occurs in the lowercased title, or description, or some lowercased tag. -/
def postMatches (searchTerm : String) (post : PostMetadata) : Bool :=
  let titleMatch := strIncludes (jsToLower post.title) searchTerm
  let descriptionMatch := strIncludes (jsToLower post.description) searchTerm
  let tagsMatch := post.tags.any (fun tag => strIncludes (jsToLower tag) searchTerm)
  titleMatch || descriptionMatch || tagsMatch

/-- Models `handleSearch` from the home page: lowercase the query and keep
the posts matching it. -/
def handleSearch (posts : List PostMetadata) (query : String) : List PostMetadata :=
  let searchTerm := jsToLower query
  posts.filter (postMatches searchTerm)

/-- Sample frontmatter dated January 19, 2024. -/
def fmJan : FrontmatterData :=
  { title := "Gradle Plugin"
    date := "2024-01-19"
    description := "Automated library releases"
    tags := ["gradle", "automation"]
    slugField := none }

/-- Sample frontmatter dated March 15, 2024. -/
def fmMar : FrontmatterData :=
  { title := "My First Learning Experience"
    date := "2024-03-15"
    description := "A first post"
    tags := ["coding", "learning"]
    slugField := none }

/-- Sample frontmatter whose metadata header itself carries a slug key. -/
def fmSneaky : FrontmatterData :=
  { title := "Sneaky"
    date := "2024-02-02"
    description := "Header with its own slug key"
    tags := ["meta"]
    slugField := some "header-slug" }

/-- A store holding a single file with the plain `.md` extension. -/
def dirMdOnly : Dir := [("example.md", .parsed fmJan "body")]

/-- A store holding two dated `.mdx` posts, the older one listed first. -/
def dirTwo : Dir :=
  [("jan-post.mdx", .parsed fmJan "b1"), ("march-post.mdx", .parsed fmMar "b2")]

/-- A store where a `.md` file and a `.mdx` file share the same stem. -/
def dirDup : Dir := [("foo.md", .parsed fmJan "b1"), ("foo.mdx", .parsed fmMar "b2")]

/-- A store with one well-formed file and one malformed file. -/
def dirBad : Dir := [("good.mdx", .parsed fmJan "b"), ("bad.mdx", .malformed)]

/-- A store with a single file whose header carries its own slug key. -/
def dirSneaky : Dir := [("real-name.mdx", .parsed fmSneaky "b")]

/-- The post summary of the March sample, as listed under slug `first-post`. -/
def postLearn : PostMetadata := spreadWithSlug fmMar "first-post"

end Blog

namespace Blog

/-! Helper lemmas about the string operations. -/

theorem containsSub_iff (needle hay : List Char) :
    containsSub needle hay = true ↔ needle <:+: hay := by
  induction hay with
  | nil => simp [containsSub, List.isPrefixOf_iff_prefix]
  | cons c rest ih =>
    simp [containsSub, Bool.or_eq_true, List.isPrefixOf_iff_prefix, ih,
      List.infix_cons_iff]

theorem containsSub_nil (hay : List Char) : containsSub [] hay = true := by
  cases hay <;> simp [containsSub, List.isPrefixOf]

theorem toNat_ofNat_valid (n : Nat) (hv : n.isValidChar) :
    (Char.ofNat n).toNat = n := by
  rw [Char.ofNat, dif_pos hv]
  simp [Char.ofNatAux, Char.toNat, UInt32.toNat, BitVec.toNat_ofNatLt]

theorem charToLower_idem (c : Char) : c.toLower.toLower = c.toLower := by
  by_cases h : c.toNat ≥ 65 ∧ c.toNat ≤ 90
  · have hv : (c.toNat + 32).isValidChar := Or.inl (by omega)
    have ht := toNat_ofNat_valid (c.toNat + 32) hv
    have h1 : c.toLower = Char.ofNat (c.toNat + 32) := by
      unfold Char.toLower
      rw [if_pos h]
    rw [h1]
    unfold Char.toLower
    rw [ht, if_neg (by omega)]
  · have h1 : c.toLower = c := by
      unfold Char.toLower
      rw [if_neg h]
    rw [h1, h1]

theorem jsToLower_idem (s : String) : jsToLower (jsToLower s) = jsToLower s := by
  apply String.ext
  simp [jsToLower, List.map_map, Function.comp_def, charToLower_idem]

theorem dropRight_append_of_ends (s suf : String) (h : strEndsWith s suf = true) :
    strDropRight s suf.data.length ++ suf = s := by
  apply String.ext
  have hs : suf.data <:+ s.data := List.isSuffixOf_iff_suffix.mp h
  have heq := List.suffix_iff_eq_append.mp hs
  simpa [strDropRight, String.data_append] using heq

theorem dropRight_mdx (s : String) (h : strEndsWith s ".mdx" = true) :
    strDropRight s 4 ++ ".mdx" = s := by
  have h4 : (".mdx" : String).data.length = 4 := by decide
  have := dropRight_append_of_ends s ".mdx" h
  rwa [h4] at this

/-! Helper lemmas about the file-system model. -/

theorem readFileSync_mem (dir : Dir) (name : String) (c : FileContent)
    (hmem : (name, c) ∈ dir) (hnd : (readdirSync dir).Nodup) :
    readFileSync dir name = .ok c := by
  induction dir with
  | nil => cases hmem
  | cons hd tl ih =>
    rcases List.mem_cons.mp hmem with heq | htl
    · subst heq
      simp [readFileSync, List.find?]
    · have hnd' : hd.fst ∉ (tl.map Prod.fst) ∧ (readdirSync tl).Nodup := by
        simpa [readdirSync, List.nodup_cons] using hnd
      have hne : (hd.fst == name) = false := by
        have : name ∈ tl.map Prod.fst := List.mem_map.mpr ⟨(name, c), htl, rfl⟩
        simp only [beq_eq_false_iff_ne, ne_eq]
        intro hcontra
        exact hnd'.1 (hcontra ▸ this)
      have := ih htl hnd'.2
      simpa [readFileSync, List.find?, hne] using this

theorem readFileSync_not_mem (dir : Dir) (name : String)
    (h : name ∉ readdirSync dir) :
    readFileSync dir name = .error .notFound := by
  have : dir.find? (fun e => e.fst == name) = none := by
    apply List.find?_eq_none.mpr
    intro e hmem hbeq
    exact h (List.mem_map.mpr ⟨e, hmem, (eq_of_beq hbeq)⟩)
  simp [readFileSync, this]

theorem readFileSync_of_mem_names (dir : Dir) (name : String)
    (h : name ∈ readdirSync dir) :
    ∃ c, readFileSync dir name = .ok c := by
  have : ∃ e ∈ dir, (fun e : String × FileContent => e.fst == name) e = true := by
    rcases List.mem_map.mp h with ⟨e, hmem, heq⟩
    exact ⟨e, hmem, by simp [heq]⟩
  have hsome := List.find?_isSome.mpr this
  rcases Option.isSome_iff_exists.mp hsome with ⟨e, hfind⟩
  exact ⟨e.snd, by simp [readFileSync, hfind]⟩

/-! Helper lemmas about the concurrent-load model. -/

theorem promiseAll_ok_forall2 {α β : Type} {f : α → Except BlogError β}
    {l : List α} {ys : List β} (h : promiseAll f l = .ok ys) :
    List.Forall₂ (fun x y => f x = .ok y) l ys := by
  induction l generalizing ys with
  | nil =>
    simp [promiseAll] at h
    subst h
    exact List.Forall₂.nil
  | cons x xs ih =>
    rw [promiseAll] at h
    cases hfx : f x with
    | error e => rw [hfx] at h; cases h
    | ok y =>
      rw [hfx] at h
      cases hrest : promiseAll f xs with
      | error e => rw [hrest] at h; cases h
      | ok zs =>
        rw [hrest] at h
        cases h
        exact List.Forall₂.cons hfx (ih hrest)

theorem forall2_mem_right {α β : Type} {R : α → β → Prop}
    {l : List α} {ys : List β} (h : List.Forall₂ R l ys) :
    ∀ y ∈ ys, ∃ x ∈ l, R x y := by
  induction h with
  | nil =>
    intro y hy
    cases hy
  | cons hf _ ih =>
    intro y hy
    rcases List.mem_cons.mp hy with heq | htl
    · exact heq ▸ ⟨_, List.mem_cons_self _ _, hf⟩
    · rcases ih y htl with ⟨x, hx, hR⟩
      exact ⟨x, List.mem_cons_of_mem _ hx, hR⟩

theorem promiseAll_error {α β : Type} {f : α → Except BlogError β}
    {l : List α} {x : α} (hx : x ∈ l) (he : f x = .error .parseError)
    (hall : ∀ z ∈ l, f z = .error .parseError ∨ ∃ y, f z = .ok y) :
    promiseAll f l = .error .parseError := by
  induction l with
  | nil => cases hx
  | cons z zs ih =>
    rw [promiseAll]
    rcases hall z (List.mem_cons_self _ _) with hz | ⟨y, hz⟩
    · rw [hz]
    · rw [hz]
      rcases List.mem_cons.mp hx with heq | htl
      · subst heq
        rw [he] at hz
        cases hz
      · rw [ih htl (fun w hw => hall w (List.mem_cons_of_mem _ hw))]

/-! Helper lemmas about the stable sort. -/

theorem mem_insertStable {α : Type} (le : α → α → Bool) (x w : α) (l : List α) :
    w ∈ insertStable le x l ↔ w = x ∨ w ∈ l := by
  induction l with
  | nil => simp [insertStable]
  | cons y ys ih =>
    rw [insertStable]
    by_cases h : le x y = true
    · rw [if_pos h]
      simp only [List.mem_cons]
    · rw [if_neg h]
      simp only [List.mem_cons, ih]
      tauto

theorem insertStable_perm {α : Type} (le : α → α → Bool) (x : α) (l : List α) :
    (insertStable le x l).Perm (x :: l) := by
  induction l with
  | nil => simp [insertStable]
  | cons y ys ih =>
    by_cases h : le x y = true
    · simp [insertStable, h]
    · rw [insertStable, if_neg h]
      exact (ih.cons y).trans (List.Perm.swap x y ys)

theorem stableSort_perm {α : Type} (le : α → α → Bool) (l : List α) :
    (stableSort le l).Perm l := by
  induction l with
  | nil => simp [stableSort]
  | cons x xs ih =>
    exact (insertStable_perm le x (stableSort le xs)).trans (ih.cons x)

theorem mem_stableSort {α : Type} (le : α → α → Bool) (w : α) (l : List α) :
    w ∈ stableSort le l ↔ w ∈ l :=
  (stableSort_perm le l).mem_iff

theorem pairwise_insertStable (x : PostMetadata) (l : List PostMetadata)
    (h : l.Pairwise (fun a b => dateKey b.date ≤ dateKey a.date)) :
    (insertStable postLe x l).Pairwise
      (fun a b => dateKey b.date ≤ dateKey a.date) := by
  induction l with
  | nil => simp [insertStable]
  | cons y ys ih =>
    rcases List.pairwise_cons.mp h with ⟨hy, hys⟩
    by_cases hle : postLe x y = true
    · have hxy : dateKey y.date ≤ dateKey x.date := of_decide_eq_true hle
      rw [insertStable, if_pos hle]
      refine List.pairwise_cons.mpr ⟨?_, h⟩
      intro b hb
      rcases List.mem_cons.mp hb with heq | htl
      · exact heq ▸ hxy
      · exact le_trans (hy b htl) hxy
    · have hyx : dateKey x.date ≤ dateKey y.date := by
        have hle' := hle
        simp [postLe] at hle'
        omega
      rw [insertStable, if_neg hle]
      refine List.pairwise_cons.mpr ⟨?_, ih hys⟩
      intro b hb
      rcases (mem_insertStable postLe x b ys).mp hb with heq | htl
      · exact heq ▸ hyx
      · exact hy b htl

theorem pairwise_stableSort (l : List PostMetadata) :
    (stableSort postLe l).Pairwise
      (fun a b => dateKey b.date ≤ dateKey a.date) := by
  induction l with
  | nil => simp [stableSort]
  | cons x xs ih => exact pairwise_insertStable x (stableSort postLe xs) ih

/-! Helper lemmas about the loaders. -/

theorem loadPost_ok_slug {dir : Dir} {n : String} {p : PostMetadata}
    (h : loadPost dir n = .ok p) : p.slug = stripMdxOpt n := by
  unfold loadPost at h
  cases hr : readFileSync dir n with
  | error e => rw [hr] at h; cases h
  | ok c =>
    simp only [hr] at h
    cases hm : matter c with
    | error e => rw [hm] at h; cases h
    | ok pr =>
      simp only [hm] at h
      cases h
      rfl

theorem forall2_slug_map {dir : Dir} {names : List String}
    {posts : List PostMetadata}
    (h : List.Forall₂ (fun n p => loadPost dir n = .ok p) names posts) :
    posts.map PostMetadata.slug = names.map stripMdxOpt := by
  induction h with
  | nil => rfl
  | cons hf _ ih => simp [List.map_cons, ih, loadPost_ok_slug hf]

end Blog

namespace Blog

/-- C1 (counterexample): the Content Store may hold a file with the plain
`.md` extension; `getAllPosts` lists it under the slug `example`, but
`getPostBySlug "example"` looks up `example.mdx` and fails, so the slug does
not resolve back to that file. -/
theorem C1_md_file_breaks_roundtrip :
    getAllPosts dirMdOnly = .ok [spreadWithSlug fmJan "example"] ∧
    getPostBySlug dirMdOnly "example" = .error .notFound :=
  ⟨rfl, rfl⟩

/-- C1 (amended): for every content file whose name ends in `.mdx` and whose
filename-derived slug does not itself end in `.mdx` (filenames being
distinct, as in a real directory), the slug derived by `getAllPosts`, passed
to `getPostBySlug`, resolves to exactly that file and returns its body and
metadata, with a slug field equal to the derived slug. -/
theorem C1_roundtrip_mdx (dir : Dir) (name : String) (data : FrontmatterData)
    (body : String) (hmem : (name, .parsed data body) ∈ dir)
    (hnd : (readdirSync dir).Nodup)
    (hmdx : strEndsWith name ".mdx" = true)
    (hslug : strEndsWith (stripMdxOpt name) ".mdx" = false) :
    getPostBySlug dir (stripMdxOpt name) =
      .ok { mdxSource := body, metadata := spreadWithSlug data (stripMdxOpt name) } ∧
    loadPost dir name = .ok (spreadWithSlug data (stripMdxOpt name)) := by
  have hstrip : stripMdxOpt name = strDropRight name 4 := by
    rw [stripMdxOpt, if_pos hmdx]
  have hreal : stripMdx (stripMdxOpt name) = stripMdxOpt name := by
    rw [stripMdx, if_neg (by simp [hslug])]
  have hpath : stripMdxOpt name ++ ".mdx" = name := by
    rw [hstrip]
    exact dropRight_mdx name hmdx
  have hread := readFileSync_mem dir name (.parsed data body) hmem hnd
  constructor
  · simp only [getPostBySlug]
    rw [hreal, hpath, hread]
    rfl
  · unfold loadPost
    rw [hread]
    rfl

theorem C1_roundtrip_mdx_witness :
    getPostBySlug dirTwo (stripMdxOpt "march-post.mdx") =
      .ok { mdxSource := "b2",
            metadata := spreadWithSlug fmMar (stripMdxOpt "march-post.mdx") } :=
  (C1_roundtrip_mdx dirTwo "march-post.mdx" fmMar "b2" (by decide) (by decide)
    (by decide) (by decide)).1

/-- C2: whenever `getAllPosts` succeeds and all returned dates parse, the
returned list is sorted non-increasing by date (most recent first). -/
theorem C2_listing_sorted_desc (dir : Dir) (l : List PostMetadata)
    (h : getAllPosts dir = .ok l)
    (hdates : ∀ p ∈ l, (parseDate p.date).isSome) :
    l.Pairwise (fun a b => dateKey b.date ≤ dateKey a.date) := by
  unfold getAllPosts at h
  cases hp : promiseAll (loadPost dir) ((readdirSync dir).filter isMdxFile) with
  | error e => rw [hp] at h; cases h
  | ok posts =>
    rw [hp] at h
    cases h
    exact pairwise_stableSort posts

theorem C2_listing_sorted_desc_witness :
    getAllPosts dirTwo =
      .ok [spreadWithSlug fmMar "march-post", spreadWithSlug fmJan "jan-post"] ∧
    List.Pairwise (fun a b => dateKey b.date ≤ dateKey a.date)
      [spreadWithSlug fmMar "march-post", spreadWithSlug fmJan "jan-post"] :=
  ⟨rfl, C2_listing_sorted_desc dirTwo _ rfl (by decide)⟩

/-- C3: when no file in the store matches the slug (after stripping a
trailing `.mdx`), `getPostBySlug` fails with the NotFound condition, which
is a condition distinct from IOError and from ParseError. -/
theorem C3_missing_slug_not_found (dir : Dir) (slug : String)
    (h : (stripMdx slug ++ ".mdx") ∉ readdirSync dir) :
    getPostBySlug dir slug = .error .notFound ∧
    BlogError.notFound ≠ BlogError.ioError ∧
    BlogError.notFound ≠ BlogError.parseError := by
  refine ⟨?_, by decide, by decide⟩
  have hread := readFileSync_not_mem dir _ h
  simp only [getPostBySlug]
  rw [hread]

theorem C3_missing_slug_not_found_witness :
    getPostBySlug dirTwo "missing-slug" = .error .notFound :=
  (C3_missing_slug_not_found dirTwo "missing-slug" (by decide)).1

/-- C4 (counterexample): a store with the distinct filenames `foo.md` and
`foo.mdx` yields two different summaries that share the slug `foo`, so
distinct filenames do not make slugs unique. -/
theorem C4_md_mdx_slug_collision :
    (readdirSync dirDup).Nodup ∧
    getAllPosts dirDup =
      .ok [spreadWithSlug fmMar "foo", spreadWithSlug fmJan "foo"] ∧
    (spreadWithSlug fmMar "foo").slug = (spreadWithSlug fmJan "foo").slug ∧
    spreadWithSlug fmMar "foo" ≠ spreadWithSlug fmJan "foo" :=
  ⟨by decide, rfl, rfl, by decide⟩

/-- C4 (amended): if the filenames are pairwise distinct and every filename
ends in `.mdx` (not merely `.md`), then the slug fields of the summaries
returned by `getAllPosts` are pairwise distinct. -/
theorem C4_slug_unique_mdx (dir : Dir) (l : List PostMetadata)
    (hnd : (readdirSync dir).Nodup)
    (hall : ∀ n ∈ readdirSync dir, strEndsWith n ".mdx" = true)
    (h : getAllPosts dir = .ok l) :
    (l.map PostMetadata.slug).Nodup := by
  unfold getAllPosts at h
  cases hp : promiseAll (loadPost dir) ((readdirSync dir).filter isMdxFile) with
  | error e => rw [hp] at h; cases h
  | ok posts =>
    rw [hp] at h
    cases h
    have hmap := forall2_slug_map (promiseAll_ok_forall2 hp)
    have hperm : ((stableSort postLe posts).map PostMetadata.slug).Perm
        (posts.map PostMetadata.slug) :=
      (stableSort_perm postLe posts).map PostMetadata.slug
    rw [hperm.nodup_iff, hmap]
    apply List.Nodup.map_on
    · intro x hx y hy hxy
      have hxm : strEndsWith x ".mdx" = true := hall x (List.mem_filter.mp hx).1
      have hym : strEndsWith y ".mdx" = true := hall y (List.mem_filter.mp hy).1
      have hx4 : stripMdxOpt x = strDropRight x 4 := by
        rw [stripMdxOpt, if_pos hxm]
      have hy4 : stripMdxOpt y = strDropRight y 4 := by
        rw [stripMdxOpt, if_pos hym]
      calc x = strDropRight x 4 ++ ".mdx" := (dropRight_mdx x hxm).symm
        _ = strDropRight y 4 ++ ".mdx" := by rw [← hx4, ← hy4, hxy]
        _ = y := dropRight_mdx y hym
    · exact hnd.filter isMdxFile

theorem C4_slug_unique_mdx_witness :
    ([spreadWithSlug fmMar "march-post", spreadWithSlug fmJan "jan-post"].map
      PostMetadata.slug).Nodup :=
  C4_slug_unique_mdx dirTwo _ (by decide) (by decide) rfl

/-- C5: if any single listed content file has a malformed metadata header,
`getAllPosts` fails as a whole with ParseError: the rejection of one load
rejects the joint promise, and no list containing the successfully parsed
files is returned. -/
theorem C5_malformed_aborts_listing (dir : Dir) (name : String)
    (hmem : (name, FileContent.malformed) ∈ dir)
    (hnd : (readdirSync dir).Nodup)
    (hfile : isMdxFile name = true) :
    getAllPosts dir = .error .parseError := by
  have hname : name ∈ (readdirSync dir).filter isMdxFile :=
    List.mem_filter.mpr ⟨List.mem_map.mpr ⟨(name, .malformed), hmem, rfl⟩, hfile⟩
  have herr : loadPost dir name = .error .parseError := by
    unfold loadPost
    rw [readFileSync_mem dir name .malformed hmem hnd]
    rfl
  have hall : ∀ z ∈ (readdirSync dir).filter isMdxFile,
      loadPost dir z = .error .parseError ∨ ∃ y, loadPost dir z = .ok y := by
    intro z hz
    have hzdir : z ∈ readdirSync dir := (List.mem_filter.mp hz).1
    rcases readFileSync_of_mem_names dir z hzdir with ⟨c, hc⟩
    cases c with
    | parsed d b =>
      right
      refine ⟨spreadWithSlug d (stripMdxOpt z), ?_⟩
      unfold loadPost
      rw [hc]
      rfl
    | malformed =>
      left
      unfold loadPost
      rw [hc]
      rfl
  have hfail := promiseAll_error hname herr hall
  unfold getAllPosts
  rw [hfail]

theorem C5_malformed_aborts_listing_witness :
    getAllPosts dirBad = .error .parseError :=
  C5_malformed_aborts_listing dirBad "bad.mdx" (by decide) (by decide) (by decide)

/-- C6: a post of the input list is kept by `handleSearch` exactly when the
lowercased query occurs as a substring of the lowercased title, or of the
lowercased description, or of at least one lowercased tag. -/
theorem C6_filter_match_iff (posts : List PostMetadata) (query : String)
    (post : PostMetadata) (hmem : post ∈ posts) :
    post ∈ handleSearch posts query ↔
      ((jsToLower query).data <:+: (jsToLower post.title).data ∨
       (jsToLower query).data <:+: (jsToLower post.description).data ∨
       ∃ tag ∈ post.tags, (jsToLower query).data <:+: (jsToLower tag).data) := by
  unfold handleSearch postMatches
  rw [List.mem_filter]
  simp [hmem, strIncludes, containsSub_iff, List.any_eq_true]
  tauto

theorem C6_filter_match_iff_witness :
    postLearn ∈ handleSearch [postLearn] "LEARN" :=
  (C6_filter_match_iff [postLearn] "LEARN" postLearn (by simp)).mpr
    (Or.inr (Or.inr ⟨"learning", by decide, by decide⟩))

/-- C7: with the empty query, `handleSearch` returns the whole input list
unchanged and in order. -/
theorem C7_empty_query_all (posts : List PostMetadata) :
    handleSearch posts "" = posts := by
  unfold handleSearch
  apply List.filter_eq_self.mpr
  intro p hp
  unfold postMatches
  have hnil : strIncludes (jsToLower p.title) (jsToLower "") = true := by
    simp [strIncludes, jsToLower, containsSub_nil]
  simp [hnil]

/-- C8: `handleSearch` is idempotent — filtering its own output by the same
query returns that output. -/
theorem C8_filter_idempotent (posts : List PostMetadata) (query : String) :
    handleSearch (handleSearch posts query) query = handleSearch posts query := by
  unfold handleSearch
  rw [List.filter_filter]
  apply List.filter_congr
  intro x hx
  rw [Bool.and_self]

/-- C9: matching is case-insensitive — filtering by a query and by its
lowercased form yield identical results, and in particular the queries
`CODING` and `coding` agree on every list of posts. -/
theorem C9_case_insensitive (posts : List PostMetadata) (query : String) :
    handleSearch posts query = handleSearch posts (jsToLower query) ∧
    handleSearch posts "CODING" = handleSearch posts "coding" := by
  constructor
  · unfold handleSearch
    rw [jsToLower_idem]
  · unfold handleSearch
    have hq : jsToLower "CODING" = jsToLower "coding" := by decide
    rw [hq]

/-- C10: the filename-derived slug always overrides any slug key inside the
frontmatter: a successful `getPostBySlug` returns metadata whose slug is the
input slug with a trailing `.mdx` stripped, and every summary returned by
`getAllPosts` carries the slug derived from its file's name. -/
theorem C10_slug_overrides_frontmatter :
    (∀ (dir : Dir) (slug : String) (post : RenderedPost),
        getPostBySlug dir slug = .ok post →
        post.metadata.slug = stripMdx slug) ∧
    (∀ (dir : Dir) (l : List PostMetadata), getAllPosts dir = .ok l →
        ∀ p ∈ l, ∃ n ∈ (readdirSync dir).filter isMdxFile,
          p.slug = stripMdxOpt n) := by
  constructor
  · intro dir slug post h
    simp only [getPostBySlug] at h
    cases hr : readFileSync dir (stripMdx slug ++ ".mdx") with
    | error e => rw [hr] at h; cases h
    | ok c =>
      simp only [hr] at h
      cases hm : matter c with
      | error e => rw [hm] at h; cases h
      | ok pr =>
        simp only [hm] at h
        cases h
        rfl
  · intro dir l h p hp
    unfold getAllPosts at h
    cases hpa : promiseAll (loadPost dir) ((readdirSync dir).filter isMdxFile) with
    | error e => rw [hpa] at h; cases h
    | ok posts =>
      rw [hpa] at h
      cases h
      have hp' : p ∈ posts := (mem_stableSort postLe p posts).mp hp
      rcases forall2_mem_right (promiseAll_ok_forall2 hpa) p hp' with ⟨n, hn, hload⟩
      exact ⟨n, hn, loadPost_ok_slug hload⟩

theorem C10_slug_overrides_frontmatter_witness :
    ({ mdxSource := "b", metadata := spreadWithSlug fmSneaky "real-name" } :
      RenderedPost).metadata.slug = stripMdx "real-name" ∧
    fmSneaky.slugField = some "header-slug" :=
  ⟨C10_slug_overrides_frontmatter.1 dirSneaky "real-name" _ rfl, rfl⟩

end Blog
